import Mathlib

/-!
Shallow embedding of the `sam logs` command and of the log retrieval and
tailing engine it drives. The CLI dispatch layer (option defaults, the
`do_cli` branch between bounded fetch and tail, and the incremental output
loop) is translated from `samcli/commands/logs/command.py`. The engine
components themselves (Cursor/Deduplicator, window validation, the
TailScheduler state machine and the retry handling) are not part of the
repository slice; they are modelled from the specification text, and each
such definition is marked as modelled from the spec.
-/

/-- Modelled from the spec: a log event carries a backend-assigned opaque
identifier, an epoch-millisecond timestamp, a raw message and a
source-stream identifier, and is immutable once produced (the LogEvent
record of the data model; the engine that produces it is not in the
repository slice). -/
structure LogEvent where
  ident : Nat
  timestamp : Nat
  message : String
  stream : String
  deriving DecidableEq

/-- Modelled from the spec: the Cursor/Deduplicator holds the last confirmed
watermark timestamp and the identifiers recently seen, used to suppress
duplicates across overlapping poll windows (the Cursor of the data model;
its implementation is not in the repository slice). -/
structure Cursor where
  watermark : Nat
  seen : List Nat
  deriving DecidableEq

/-- Modelled from the spec: a Cursor is created at session start from the
requested start time, with nothing seen yet. -/
def Cursor.init (start : Nat) : Cursor :=
  { watermark := start, seen := [] }

/-- Modelled from the spec: admit returns whether the event is new; as a side
effect, if new, it records the identifier and advances the watermark to the
maximum of the current watermark and the event timestamp (the Cursor
contract; its implementation is not in the repository slice). -/
def Cursor.accept (c : Cursor) (e : LogEvent) : Bool × Cursor :=
  if e.ident ∈ c.seen then (false, c)
  else (true, { watermark := max c.watermark e.timestamp, seen := e.ident :: c.seen })

/-- Modelled from the spec: one backend page is passed through the Cursor
event by event; each admitted event is emitted immediately, in stable input
order, and suppressed events are dropped. -/
def admitEvents : Cursor → List LogEvent → List LogEvent × Cursor
  | c, [] => ([], c)
  | c, e :: es =>
    (if (c.accept e).1 then e :: (admitEvents (c.accept e).2 es).1
     else (admitEvents (c.accept e).2 es).1,
     (admitEvents (c.accept e).2 es).2)

/-- Identifiers of a list of events, in emission order. -/
def idsOf (es : List LogEvent) : List Nat :=
  es.map (fun e => e.ident)

/-- Timestamp ordering relation between two events. -/
def tsLE (a b : LogEvent) : Prop :=
  a.timestamp ≤ b.timestamp

instance : DecidableRel tsLE :=
  fun a b => inferInstanceAs (Decidable (a.timestamp ≤ b.timestamp))

/-- Ordering of an emitted sequence: every adjacent pair of emitted events is
non-decreasing in timestamp. -/
def TsSorted (es : List LogEvent) : Prop :=
  es.Chain' tsLE

/-- Modelled from the spec: the EventSource classifies each backend reply as a
page of events plus a continuation flag, or as Throttled / Unavailable
(retryable) or NotFound / Unauthorized (fatal); the EventSource adapter is
not in the repository slice. -/
inductive BackendResponse where
  | page (events : List LogEvent) (more : Bool)
  | throttled
  | unavailable
  | notFound
  | unauthorized
  deriving DecidableEq

/-- Modelled from the spec: the error taxonomy the engine surfaces to the
caller; the engine is not in the repository slice. -/
inductive FetchError where
  | invalidTimeRange
  | retriesExhausted
  | notFound
  | unauthorized
  deriving DecidableEq

/-- Modelled from the spec: the bounded-fetch page loop of the Fetcher facade,
which is not in the repository slice. The backend is abstracted as a function
from call index to classified response. Each backend call consumes one unit
of fuel and none signals that the supplied fuel was insufficient; retryable
classifications (Throttled, Unavailable) consume a shared attempt budget and
exhausting it surfaces RetriesExhausted; fatal classifications are surfaced
unchanged. The result carries the emitted events (or the fatal error)
together with the total number of backend calls issued. -/
def fetchLoop (backend : Nat → BackendResponse) (budget : Nat) :
    Nat → Cursor → Nat → Nat → Option (Except FetchError (List LogEvent) × Nat)
  | 0, _, _, _ => none
  | fuel + 1, c, calls, retries =>
    match backend calls with
    | .page events more =>
      if more then
        match fetchLoop backend budget fuel ((admitEvents c events).2) (calls + 1) 0 with
        | none => none
        | some (.ok evs, n) => some (.ok ((admitEvents c events).1 ++ evs), n)
        | some (.error err, n) => some (.error err, n)
      else some (.ok (admitEvents c events).1, calls + 1)
    | .throttled =>
      if budget ≤ retries + 1 then some (.error .retriesExhausted, calls + 1)
      else fetchLoop backend budget fuel c (calls + 1) (retries + 1)
    | .unavailable =>
      if budget ≤ retries + 1 then some (.error .retriesExhausted, calls + 1)
      else fetchLoop backend budget fuel c (calls + 1) (retries + 1)
    | .notFound => some (.error .notFound, calls + 1)
    | .unauthorized => some (.error .unauthorized, calls + 1)

/-- Modelled from the spec: the bounded fetch operation of the Fetcher facade,
which is not in the repository slice. It validates the window first: a start
strictly greater than the end is the fatal InvalidTimeRange, surfaced
immediately with no backend call and no retry; a start equal to the end
yields an empty sequence with no backend call; otherwise the window is
drained through the page loop with a fresh Cursor seeded from the start
time. -/
def fetchRun (backend : Nat → BackendResponse) (budget fuel : Nat)
    (start stop : Nat) : Option (Except FetchError (List LogEvent) × Nat) :=
  if stop < start then some (.error .invalidTimeRange, 0)
  else if start = stop then some (.ok [], 0)
  else fetchLoop backend budget fuel (Cursor.init start) 0 0

/-- Modelled from the spec: the events the backend delivers across successive
calls starting at call index k, for a given number of calls, in arrival
order (the reference stream a bounded fetch filters). -/
def backendEvents (backend : Nat → BackendResponse) : Nat → Nat → List LogEvent
  | _, 0 => []
  | k, fuel + 1 =>
    (match backend k with
     | .page events _ => events
     | _ => []) ++ backendEvents backend (k + 1) fuel

/-- Modelled from the spec: the TailScheduler tuning, which is not in the
repository slice: minimum poll interval, fixed interval ceiling,
multiplicative growth factor and the bounded retry attempt budget. -/
structure TailConfig where
  minInterval : Nat
  maxInterval : Nat
  multiplier : Nat
  retryBudget : Nat
  deriving DecidableEq

/-- Modelled from the spec: the TailScheduler phases, Polling and Backoff
cycling until the terminal Cancelled phase; Cancelled records the fatal
error that caused it, if any (an explicit cancellation records none). -/
inductive TailPhase where
  | polling
  | backoff
  | cancelled (err : Option FetchError)
  deriving DecidableEq

/-- Modelled from the spec: the full TailScheduler state: current phase,
current poll interval, retry counter, the session Cursor, the events emitted
so far and the number of backend calls issued so far. -/
structure TailState where
  phase : TailPhase
  interval : Nat
  retries : Nat
  cursor : Cursor
  emitted : List LogEvent
  calls : Nat
  deriving DecidableEq

/-- Modelled from the spec: the initial scheduler state, Polling, seeded with
the caller-supplied start time and the minimum poll interval. -/
def TailState.init (cfg : TailConfig) (start : Nat) : TailState :=
  { phase := .polling, interval := cfg.minInterval, retries := 0,
    cursor := Cursor.init start, emitted := [], calls := 0 }

/-- Modelled from the spec: an external stimulus to the scheduler: an explicit
cancellation signal, the completion of a backoff sleep, or the classified
backend response to the poll in flight. -/
inductive TailInput where
  | cancel
  | wake
  | response (r : BackendResponse)
  deriving DecidableEq

/-- Modelled from the spec: one transition of the TailScheduler state machine,
which is not in the repository slice. Cancellation is honoured in every
phase and interrupts any sleep; a poll whose page yields new events emits
them immediately, resets the interval to its minimum and re-enters Polling
with no sleep; a poll yielding no new events enters Backoff, sleeping the
current interval, and on waking the interval grows multiplicatively up to
the ceiling before Polling resumes; a retryable classification consumes the
attempt budget and exceeding the budget promotes to the fatal
RetriesExhausted; fatal classifications transition to Cancelled; Cancelled
is terminal and absorbs every stimulus. -/
def tailStep (cfg : TailConfig) (s : TailState) (i : TailInput) : TailState :=
  match s.phase with
  | .cancelled _ => s
  | .polling =>
    match i with
    | .cancel => { s with phase := .cancelled none }
    | .wake => s
    | .response (.page events _) =>
      if (admitEvents s.cursor events).1.isEmpty then
        { s with phase := .backoff, cursor := (admitEvents s.cursor events).2,
                 calls := s.calls + 1 }
      else
        { s with phase := .polling, cursor := (admitEvents s.cursor events).2,
                 emitted := s.emitted ++ (admitEvents s.cursor events).1,
                 interval := cfg.minInterval, retries := 0, calls := s.calls + 1 }
    | .response .throttled =>
      if cfg.retryBudget ≤ s.retries + 1 then
        { s with phase := .cancelled (some .retriesExhausted), calls := s.calls + 1 }
      else
        { s with phase := .backoff, retries := s.retries + 1, calls := s.calls + 1 }
    | .response .unavailable =>
      if cfg.retryBudget ≤ s.retries + 1 then
        { s with phase := .cancelled (some .retriesExhausted), calls := s.calls + 1 }
      else
        { s with phase := .backoff, retries := s.retries + 1, calls := s.calls + 1 }
    | .response .notFound =>
      { s with phase := .cancelled (some .notFound), calls := s.calls + 1 }
    | .response .unauthorized =>
      { s with phase := .cancelled (some .unauthorized), calls := s.calls + 1 }
  | .backoff =>
    match i with
    | .cancel => { s with phase := .cancelled none }
    | .wake =>
      { s with phase := .polling,
               interval := min (s.interval * cfg.multiplier) cfg.maxInterval }
    | .response _ => s

/-- Modelled from the spec: a run of the TailScheduler over a sequence of
external stimuli, one transition per stimulus. -/
def tailRun (cfg : TailConfig) : TailState → List TailInput → TailState
  | s, [] => s
  | s, i :: rest => tailRun cfg (tailStep cfg s i) rest

/-- Backend events contained in one stimulus, in arrival order. -/
def pageOf : TailInput → List LogEvent
  | .response (.page events _) => events
  | _ => []

/-- Backend events contained in a stimulus sequence, in arrival order (the
reference stream a tail session filters). -/
def pagesIn : List TailInput → List LogEvent
  | [] => []
  | i :: rest => pageOf i ++ pagesIn rest

/-- Modelled from the spec: the stimulus sequence produced by a backend that
always reports Throttled: each poll is answered Throttled and each backoff
sleep completes undisturbed. -/
def throttleRounds : Nat → List TailInput
  | 0 => []
  | n + 1 => .response .throttled :: .wake :: throttleRounds n

/-- Sample backend that always reports throttling. -/
def alwaysThrottled : Nat → BackendResponse :=
  fun _ => .throttled

/-- Call issued by `do_cli` to the fetcher facade (command.py lines 100-110):
either the unbounded tail, which takes no end bound, or the bounded fetch
over a start/end window. The time type is kept abstract because the CLI
passes whatever `LogsCommandContext` parsed. -/
inductive FetcherCall (α : Type) where
  | tail (logGroup : String) (filterPattern : Option String) (start : α)
  | fetch (logGroup : String) (filterPattern : Option String) (start : α) (stop : Option α)
  deriving DecidableEq

/-- Translation of the dispatch in `do_cli` (command.py lines 100-110): when
the tailing flag is set, the fetcher's `tail` is called with the log group
name, the filter pattern and the start time only, so the end time does not
appear in that call; otherwise `fetch` is called over the bounded window. -/
def do_cli_dispatch {α : Type} (tailing : Bool) (logGroup : String)
    (filterPattern : Option String) (start : α) (stop : Option α) : FetcherCall α :=
  if tailing then .tail logGroup filterPattern start
  else .fetch logGroup filterPattern start stop

/-- Arguments that `cli` (command.py lines 34-79) hands to `do_cli` after
click has applied each option's declared default. -/
structure CliArgs where
  name : String
  stackName : Option String
  filterPattern : Option String
  tailing : Bool
  startTime : String
  endTime : Option String
  deriving DecidableEq

/-- Translation of the click option declarations on `cli` (command.py lines
34-76): a supplied value is passed through unchanged; an omitted
`--start-time` defaults to the literal string "10m ago", an omitted
`--end-time` defaults to None, an omitted `--stack-name` or `--filter`
defaults to None, and the `--tail` flag defaults to false. -/
def cliParse (name : String) (stackName filterPattern : Option String)
    (tailFlag : Option Bool) (startTime endTime : Option String) : CliArgs :=
  { name := name, stackName := stackName, filterPattern := filterPattern,
    tailing := tailFlag.getD false,
    startTime := startTime.getD ("10m ago"),
    endTime := endTime }

/-- One observable step of the output stage of `do_cli` (command.py lines
112-116): pulling the next event from the fetcher's iterable, or writing one
formatted line to output with `click.echo`. -/
inductive OutputAction where
  | produce (e : LogEvent)
  | write (line : String)
  deriving DecidableEq

/-- Modelled from the spec: `Formatter.format` is a pure per-event function
with no side effects, and the formatter's `do_format` (whose implementation
is not in the repository slice) applies it lazily to each event of the
iterable, one line per event. -/
def do_format (format : LogEvent → String) : List LogEvent → List String
  | [] => []
  | e :: es => format e :: do_format format es

/-- Translation of the output loop of `do_cli` (command.py lines 112-116)
driving the lazy pipeline: each event is pulled from the iterable, the line
the per-event formatter produced for it is immediately written with
`click.echo`, and only then is the next event pulled — nothing is buffered
until full collection. -/
def do_cli_output (format : LogEvent → String) : List LogEvent → List OutputAction
  | [] => []
  | e :: es => .produce e :: .write (format e) :: do_cli_output format es

/-- Lines written in an output trace, in order. -/
def writesOf : List OutputAction → List String
  | [] => []
  | .write l :: t => l :: writesOf t
  | .produce _ :: t => writesOf t

/-- Number of events pulled from the iterable in an output trace. -/
def producesOf : List OutputAction → Nat
  | [] => 0
  | .produce _ :: t => producesOf t + 1
  | .write _ :: t => producesOf t

/-- Sample event used to exercise the model on concrete inputs. -/
def evA : LogEvent :=
  { ident := 1, timestamp := 100, message := "", stream := "" }

/-- Sample event used to exercise the model on concrete inputs. -/
def evB : LogEvent :=
  { ident := 2, timestamp := 101, message := "", stream := "" }

/-- Sample backend delivering a single final page holding the two sample
events. -/
def backendW : Nat → BackendResponse :=
  fun _ => .page [evA, evB] false

/-- Sample scheduler configuration. -/
def cfgW : TailConfig :=
  { minInterval := 1, maxInterval := 8, multiplier := 2, retryBudget := 2 }

/-- Sample tail stimulus sequence: one poll answered with a page holding the
two sample events, then an explicit cancellation. -/
def inputsW : List TailInput :=
  [.response (.page [evA, evB] true), .cancel]

/-- Sample event with a later timestamp, used to exercise the model on
concrete inputs. -/
def evC : LogEvent :=
  { ident := 3, timestamp := 105, message := "", stream := "" }

/-- Sample tail stimulus sequence exhibiting the late-arrival pattern of the
overlap tolerance: the first poll delivers the event at timestamp 105, and
the overlapping re-poll then delivers the late-arriving event at timestamp
101, whose identifier has not been seen. -/
def lateInputs : List TailInput :=
  [.response (.page [evC] true), .response (.page [evB] true)]

/-- Sample tail state sitting in the Backoff phase. -/
def backoffW : TailState :=
  { phase := .backoff, interval := 2, retries := 1,
    cursor := Cursor.init 0, emitted := [], calls := 3 }

/-- Sample tail state sitting in the Polling phase. -/
def pollW : TailState :=
  { phase := .polling, interval := 4, retries := 0,
    cursor := Cursor.init 0, emitted := [], calls := 0 }

/-- Sample tail state sitting in the terminal Cancelled phase. -/
def cancelledW : TailState :=
  { phase := .cancelled none, interval := 1, retries := 0,
    cursor := Cursor.init 0, emitted := [], calls := 0 }

/-- Observable effect of one scheduler transition: the events freshly
emitted, their relation to the page the stimulus carried, and the cursor's
growth. -/
def StepEffect (cfg : TailConfig) (s : TailState) (i : TailInput)
    (out : List LogEvent) : Prop :=
  (tailStep cfg s i).emitted = s.emitted ++ out ∧
  List.Sublist out (pageOf i) ∧
  (∀ e ∈ out, e.ident ∉ s.cursor.seen) ∧
  (idsOf out).Nodup ∧
  (∀ x ∈ s.cursor.seen, x ∈ ((tailStep cfg s i).cursor).seen) ∧
  (∀ e ∈ out, e.ident ∈ ((tailStep cfg s i).cursor).seen)

/-- Admit reports an event as new exactly when its identifier has not been
seen. -/
theorem admit_fst_iff (c : Cursor) (e : LogEvent) :
    (c.accept e).1 = true ↔ e.ident ∉ c.seen := by
  by_cases h : e.ident ∈ c.seen <;> simp [Cursor.accept, h]

/-- Admit of a new event records its identifier and advances the watermark to
the maximum of the current watermark and the event timestamp. -/
theorem admit_snd_of_new (c : Cursor) (e : LogEvent) (h : (c.accept e).1 = true) :
    (c.accept e).2 =
      { watermark := max c.watermark e.timestamp, seen := e.ident :: c.seen } := by
  have hm : e.ident ∉ c.seen := (admit_fst_iff c e).mp h
  simp [Cursor.accept, hm]

/-- Admit of a suppressed event leaves the cursor unchanged. -/
theorem admit_snd_of_old (c : Cursor) (e : LogEvent) (h : (c.accept e).1 = false) :
    (c.accept e).2 = c := by
  by_cases hm : e.ident ∈ c.seen
  · simp [Cursor.accept, hm]
  · simp [Cursor.accept, hm] at h

/-- Admit never forgets a seen identifier. -/
theorem admit_seen_mono (c : Cursor) (e : LogEvent) :
    ∀ x ∈ c.seen, x ∈ ((c.accept e).2).seen := by
  intro x hx
  by_cases h : e.ident ∈ c.seen
  · simpa [Cursor.accept, h] using hx
  · simp [Cursor.accept, h]
    exact Or.inr hx

/-- Admit leaves the event's own identifier seen. -/
theorem admit_self_seen (c : Cursor) (e : LogEvent) :
    e.ident ∈ ((c.accept e).2).seen := by
  by_cases h : e.ident ∈ c.seen <;> simp [Cursor.accept, h]

/-- Events emitted for a page form a sublist of the page: emission preserves
the stable input order and invents nothing. -/
theorem admitEvents_sublist (c : Cursor) (es : List LogEvent) :
    List.Sublist (admitEvents c es).1 es := by
  induction es generalizing c with
  | nil => simp [admitEvents]
  | cons e es ih =>
    by_cases h : (c.accept e).1
    · simpa [admitEvents, h] using List.Sublist.cons₂ e (ih (c.accept e).2)
    · simp only [admitEvents, h]
      exact List.Sublist.trans (ih (c.accept e).2) (List.sublist_cons_self e es)

/-- Processing a page never forgets a seen identifier. -/
theorem admitEvents_seen_mono (c : Cursor) (es : List LogEvent) :
    ∀ x ∈ c.seen, x ∈ ((admitEvents c es).2).seen := by
  induction es generalizing c with
  | nil => simp [admitEvents]
  | cons e es ih =>
    intro x hx
    simp only [admitEvents]
    exact ih (c.accept e).2 x (admit_seen_mono c e x hx)

/-- Every event emitted for a page has its identifier recorded in the
resulting cursor. -/
theorem admitEvents_emitted_seen (c : Cursor) (es : List LogEvent) :
    ∀ e ∈ (admitEvents c es).1, e.ident ∈ ((admitEvents c es).2).seen := by
  induction es generalizing c with
  | nil => simp [admitEvents]
  | cons e es ih =>
    intro x hx
    by_cases h : (c.accept e).1
    · simp only [admitEvents, h, if_pos] at hx
      rcases List.mem_cons.mp hx with hx | hx
      · subst hx
        simp only [admitEvents]
        exact admitEvents_seen_mono (c.accept x).2 es x.ident (admit_self_seen c x)
      · simp only [admitEvents]
        exact ih (c.accept e).2 x hx
    · simp only [admitEvents, h, if_neg] at hx
      simp only [admitEvents]
      exact ih (c.accept e).2 x hx

/-- No event emitted for a page has an identifier the cursor had already
seen. -/
theorem admitEvents_emitted_fresh (c : Cursor) (es : List LogEvent) :
    ∀ x ∈ (admitEvents c es).1, x.ident ∉ c.seen := by
  induction es generalizing c with
  | nil => simp [admitEvents]
  | cons e es ih =>
    intro x hx hmem
    by_cases h : (c.accept e).1
    · simp only [admitEvents, h, if_pos] at hx
      rcases List.mem_cons.mp hx with hx | hx
      · subst hx
        exact (admit_fst_iff c x).mp h hmem
      · exact ih (c.accept e).2 x hx (admit_seen_mono c e x.ident hmem)
    · simp only [admitEvents, h, if_neg] at hx
      exact ih (c.accept e).2 x hx (admit_seen_mono c e x.ident hmem)

/-- Identifiers emitted for one page are distinct. -/
theorem admitEvents_nodup (c : Cursor) (es : List LogEvent) :
    (idsOf (admitEvents c es).1).Nodup := by
  induction es generalizing c with
  | nil => simp [admitEvents, idsOf]
  | cons e es ih =>
    by_cases h : (c.accept e).1
    · simp only [admitEvents, h, if_pos, idsOf, List.map_cons, List.nodup_cons]
      refine ⟨?_, ih (c.accept e).2⟩
      intro hmem
      rcases List.mem_map.mp hmem with ⟨x, hx, hid⟩
      have hfresh := admitEvents_emitted_fresh (c.accept e).2 es x hx
      rw [hid] at hfresh
      exact hfresh (admit_self_seen c e)
    · simpa [admitEvents, h] using ih (c.accept e).2

/-- Successful page loop runs emit distinct, never-seen identifiers and a
subsequence of what the backend delivered, in stable order. -/
theorem fetchLoop_ok_spec (backend : Nat → BackendResponse) (budget : Nat) :
    ∀ (fuel : Nat) (c : Cursor) (calls retries : Nat) (evs : List LogEvent) (n : Nat),
      fetchLoop backend budget fuel c calls retries = some (.ok evs, n) →
      (idsOf evs).Nodup ∧ (∀ e ∈ evs, e.ident ∉ c.seen) ∧
      List.Sublist evs (backendEvents backend calls fuel) := by
  intro fuel
  induction fuel with
  | zero =>
    intro c calls retries evs n h
    simp [fetchLoop] at h
  | succ fuel ih =>
    intro c calls retries evs n h
    simp only [fetchLoop] at h
    split at h
    case h_1 events more heq =>
      by_cases hm : more = true
      · rw [hm] at h
        simp only [if_pos] at h
        split at h
        next => exact absurd h (by simp)
        next evs' n' hr =>
          simp only [Option.some.injEq, Prod.mk.injEq, Except.ok.injEq] at h
          obtain ⟨hevs, hn⟩ := h
          subst hevs
          obtain ⟨hnd, hfresh, hsub⟩ := ih _ _ _ _ _ hr
          refine ⟨?_, ?_, ?_⟩
          · simp only [idsOf, List.map_append]
            refine List.Nodup.append ?_ ?_ ?_
            · simpa [idsOf] using admitEvents_nodup c events
            · simpa [idsOf] using hnd
            · rw [List.disjoint_left]
              intro a ha hat
              rcases List.mem_map.mp ha with ⟨x, hx, rfl⟩
              rcases List.mem_map.mp hat with ⟨y, hy, hxy⟩
              have h1 := admitEvents_emitted_seen c events x hx
              have h2 := hfresh y hy
              rw [hxy] at h2
              exact h2 h1
          · intro e he hmem
            rcases List.mem_append.mp he with he | he
            · exact admitEvents_emitted_fresh c events e he hmem
            · exact hfresh e he (admitEvents_seen_mono c events e.ident hmem)
          · simp only [backendEvents, heq]
            exact List.Sublist.append (admitEvents_sublist c events) hsub
        next err n' hr => exact absurd h (by simp)
      · rw [eq_false_of_ne_true hm] at h
        simp only [if_neg, Bool.false_eq_true, not_false_iff] at h
        simp only [Option.some.injEq, Prod.mk.injEq, Except.ok.injEq] at h
        obtain ⟨hevs, hn⟩ := h
        subst hevs
        refine ⟨admitEvents_nodup c events, admitEvents_emitted_fresh c events, ?_⟩
        simp only [backendEvents, heq]
        exact List.Sublist.trans (admitEvents_sublist c events)
          (List.sublist_append_left events _)
    case h_2 heq =>
      by_cases hb : budget ≤ retries + 1
      · rw [if_pos hb] at h
        exact absurd h (by simp)
      · rw [if_neg hb] at h
        obtain ⟨hnd, hfresh, hsub⟩ := ih _ _ _ _ _ h
        refine ⟨hnd, hfresh, ?_⟩
        simpa [backendEvents, heq] using hsub
    case h_3 heq =>
      by_cases hb : budget ≤ retries + 1
      · rw [if_pos hb] at h
        exact absurd h (by simp)
      · rw [if_neg hb] at h
        obtain ⟨hnd, hfresh, hsub⟩ := ih _ _ _ _ _ h
        refine ⟨hnd, hfresh, ?_⟩
        simpa [backendEvents, heq] using hsub
    case h_4 heq => exact absurd h (by simp)
    case h_5 heq => exact absurd h (by simp)

/-- Successful bounded fetches emit distinct identifiers and a subsequence of
the backend's delivery. -/
theorem fetchRun_ok_spec (backend : Nat → BackendResponse) (budget fuel : Nat)
    (start stop : Nat) (evs : List LogEvent) (n : Nat)
    (h : fetchRun backend budget fuel start stop = some (.ok evs, n)) :
    (idsOf evs).Nodup ∧ List.Sublist evs (backendEvents backend 0 fuel) := by
  unfold fetchRun at h
  by_cases h1 : stop < start
  · rw [if_pos h1] at h
    exact absurd h (by simp)
  · rw [if_neg h1] at h
    by_cases h2 : start = stop
    · rw [if_pos h2] at h
      simp only [Option.some.injEq, Prod.mk.injEq, Except.ok.injEq] at h
      obtain ⟨hevs, hn⟩ := h
      subst hevs
      exact ⟨by simp [idsOf], List.nil_sublist _⟩
    · rw [if_neg h2] at h
      obtain ⟨hnd, hfresh, hsub⟩ := fetchLoop_ok_spec backend budget fuel _ _ _ _ _ h
      exact ⟨hnd, hsub⟩

/-- Against a backend that always throttles, the page loop consumes the whole
attempt budget, one backend call per attempt, and then fails with
RetriesExhausted. -/
theorem fetchLoop_throttled (budget : Nat) :
    ∀ (n fuel calls retries : Nat) (c : Cursor),
      retries + n = budget → 1 ≤ n → n ≤ fuel →
      fetchLoop alwaysThrottled budget fuel c calls retries
        = some (.error .retriesExhausted, calls + n) := by
  intro n
  induction n with
  | zero =>
    intro fuel calls retries c h1 h2 h3
    omega
  | succ m ih =>
    intro fuel calls retries c h1 h2 h3
    obtain ⟨fuel', rfl⟩ : ∃ f, fuel = f + 1 := ⟨fuel - 1, by omega⟩
    by_cases hm : m = 0
    · subst hm
      have hb : budget ≤ retries + 1 := by omega
      simp [fetchLoop, alwaysThrottled, hb]
    · have hb : ¬ budget ≤ retries + 1 := by omega
      simp only [fetchLoop, alwaysThrottled, if_neg hb]
      have hr := ih fuel' (calls + 1) (retries + 1) c (by omega) (by omega) (by omega)
      simp only [alwaysThrottled] at hr
      rw [hr]
      have harith : calls + 1 + m = calls + (m + 1) := by omega
      rw [harith]

/-- Cancelled is absorbing: a cancelled scheduler ignores every stimulus. -/
theorem tailStep_cancelled (cfg : TailConfig) (s : TailState) (i : TailInput)
    (e : Option FetchError) (h : s.phase = .cancelled e) :
    tailStep cfg s i = s := by
  unfold tailStep
  rw [h]

/-- A cancelled scheduler stays in its exact state for the rest of a run. -/
theorem tailRun_cancelled (cfg : TailConfig) :
    ∀ (inputs : List TailInput) (s : TailState) (e : Option FetchError),
      s.phase = .cancelled e → tailRun cfg s inputs = s := by
  intro inputs
  induction inputs with
  | nil =>
    intro s e h
    rfl
  | cons i rest ih =>
    intro s e h
    simp only [tailRun]
    rw [tailStep_cancelled cfg s i e h]
    exact ih s e h

/-- A transition that leaves the emitted list unchanged and only grows the
cursor has the empty observable effect. -/
theorem stepEffect_of_mono (cfg : TailConfig) (s : TailState) (i : TailInput)
    (h1 : (tailStep cfg s i).emitted = s.emitted)
    (h2 : ∀ x ∈ s.cursor.seen, x ∈ ((tailStep cfg s i).cursor).seen) :
    StepEffect cfg s i [] :=
  ⟨by simp [h1], List.nil_sublist _, by simp, by simp [idsOf], h2, by simp⟩

/-- Every scheduler transition has a well-formed observable effect: it appends
a duplicate-free, never-before-seen, order-preserving selection of the page
the stimulus carried, and the cursor only grows. -/
theorem tailStep_effect (cfg : TailConfig) (s : TailState) (i : TailInput) :
    ∃ out, StepEffect cfg s i out := by
  rcases hp : s.phase with _ | _ | e0
  case cancelled =>
    exact ⟨[], stepEffect_of_mono cfg s i (by simp [tailStep, hp])
      (by simp [tailStep, hp])⟩
  case backoff =>
    rcases i with _ | _ | r
    · exact ⟨[], stepEffect_of_mono cfg s _ (by simp [tailStep, hp])
        (by simp [tailStep, hp])⟩
    · exact ⟨[], stepEffect_of_mono cfg s _ (by simp [tailStep, hp])
        (by simp [tailStep, hp])⟩
    · exact ⟨[], stepEffect_of_mono cfg s _ (by simp [tailStep, hp])
        (by simp [tailStep, hp])⟩
  case polling =>
    rcases i with _ | _ | r
    · exact ⟨[], stepEffect_of_mono cfg s _ (by simp [tailStep, hp])
        (by simp [tailStep, hp])⟩
    · exact ⟨[], stepEffect_of_mono cfg s _ (by simp [tailStep, hp])
        (by simp [tailStep, hp])⟩
    · rcases r with ⟨events, more⟩ | _ | _ | _ | _
      · by_cases hE : (admitEvents s.cursor events).1.isEmpty
        · refine ⟨[], stepEffect_of_mono cfg s _ (by simp [tailStep, hp, hE]) ?_⟩
          intro x hx
          simp only [tailStep, hp, hE]
          simp only [if_pos]
          exact admitEvents_seen_mono s.cursor events x hx
        · refine ⟨(admitEvents s.cursor events).1, ?_, ?_, ?_, ?_, ?_, ?_⟩
          · simp [tailStep, hp, hE]
          · simpa [pageOf] using admitEvents_sublist s.cursor events
          · exact admitEvents_emitted_fresh s.cursor events
          · exact admitEvents_nodup s.cursor events
          · intro x hx
            simp only [tailStep, hp, hE]
            simp only [if_neg, Bool.false_eq_true, not_false_iff]
            exact admitEvents_seen_mono s.cursor events x hx
          · intro e he
            simp only [tailStep, hp, hE]
            simp only [if_neg, Bool.false_eq_true, not_false_iff]
            exact admitEvents_emitted_seen s.cursor events e he
      · by_cases hb : cfg.retryBudget ≤ s.retries + 1
        · exact ⟨[], stepEffect_of_mono cfg s _ (by simp [tailStep, hp, hb])
            (by simp [tailStep, hp, hb])⟩
        · exact ⟨[], stepEffect_of_mono cfg s _ (by simp [tailStep, hp, hb])
            (by simp [tailStep, hp, hb])⟩
      · by_cases hb : cfg.retryBudget ≤ s.retries + 1
        · exact ⟨[], stepEffect_of_mono cfg s _ (by simp [tailStep, hp, hb])
            (by simp [tailStep, hp, hb])⟩
        · exact ⟨[], stepEffect_of_mono cfg s _ (by simp [tailStep, hp, hb])
            (by simp [tailStep, hp, hb])⟩
      · exact ⟨[], stepEffect_of_mono cfg s _ (by simp [tailStep, hp])
          (by simp [tailStep, hp])⟩
      · exact ⟨[], stepEffect_of_mono cfg s _ (by simp [tailStep, hp])
          (by simp [tailStep, hp])⟩

/-- Over any run, a tail session appends to its emitted list a duplicate-free,
order-preserving selection of the events the backend delivered, none of which
the session's cursor had already seen. -/
theorem tailRun_emitted_spec (cfg : TailConfig) :
    ∀ (inputs : List TailInput) (s : TailState),
      ∃ t, (tailRun cfg s inputs).emitted = s.emitted ++ t ∧
        List.Sublist t (pagesIn inputs) ∧
        (∀ e ∈ t, e.ident ∉ s.cursor.seen) ∧
        (idsOf t).Nodup := by
  intro inputs
  induction inputs with
  | nil =>
    intro s
    exact ⟨[], by simp [tailRun], List.nil_sublist _, by simp, by simp [idsOf]⟩
  | cons i rest ih =>
    intro s
    obtain ⟨out, he, hsub, hfresh, hnd, hmono, hseen⟩ := tailStep_effect cfg s i
    obtain ⟨t, ht, htsub, htfresh, htnd⟩ := ih (tailStep cfg s i)
    refine ⟨out ++ t, ?_, ?_, ?_, ?_⟩
    · simp only [tailRun]
      rw [ht, he, List.append_assoc]
    · simp only [pagesIn]
      exact List.Sublist.append hsub htsub
    · intro e hme hmem
      rcases List.mem_append.mp hme with hme | hme
      · exact hfresh e hme hmem
      · exact htfresh e hme (hmono e.ident hmem)
    · simp only [idsOf, List.map_append]
      refine List.Nodup.append ?_ ?_ ?_
      · simpa [idsOf] using hnd
      · simpa [idsOf] using htnd
      · rw [List.disjoint_left]
        intro a ha hat
        rcases List.mem_map.mp ha with ⟨x, hx, rfl⟩
        rcases List.mem_map.mp hat with ⟨y, hy, hxy⟩
        have h1 := hseen x hx
        have h2 := htfresh y hy
        rw [hxy] at h2
        exact h2 h1

/-- Shape of a polling transition on a throttled response while attempts
remain. -/
theorem tailStep_throttled_cont (cfg : TailConfig) (s : TailState)
    (h : s.phase = .polling) (hb : ¬ cfg.retryBudget ≤ s.retries + 1) :
    tailStep cfg s (.response .throttled)
      = { s with phase := .backoff, retries := s.retries + 1,
                 calls := s.calls + 1 } := by
  simp [tailStep, h, hb]

/-- Shape of a polling transition on a throttled response that exhausts the
attempt budget. -/
theorem tailStep_throttled_exhaust (cfg : TailConfig) (s : TailState)
    (h : s.phase = .polling) (hb : cfg.retryBudget ≤ s.retries + 1) :
    tailStep cfg s (.response .throttled)
      = { s with phase := .cancelled (some .retriesExhausted),
                 calls := s.calls + 1 } := by
  simp [tailStep, h, hb]

/-- Shape of the transition out of a completed backoff sleep. -/
theorem tailStep_backoff_wake (cfg : TailConfig) (s : TailState)
    (h : s.phase = .backoff) :
    tailStep cfg s .wake
      = { s with phase := .polling,
                 interval := min (s.interval * cfg.multiplier) cfg.maxInterval } := by
  simp [tailStep, h]

/-- Against a backend that always throttles, a polling scheduler consumes the
whole attempt budget, one backend call per attempt, then cancels with
RetriesExhausted, having emitted nothing further. -/
theorem tailRun_throttled (cfg : TailConfig) :
    ∀ (n : Nat) (s : TailState), s.phase = .polling →
      s.retries + n = cfg.retryBudget → 1 ≤ n →
      (tailRun cfg s (throttleRounds n)).phase
          = .cancelled (some .retriesExhausted) ∧
      (tailRun cfg s (throttleRounds n)).calls = s.calls + n ∧
      (tailRun cfg s (throttleRounds n)).emitted = s.emitted := by
  intro n
  induction n with
  | zero =>
    intro s h1 h2 h3
    omega
  | succ m ih =>
    intro s h1 h2 h3
    simp only [throttleRounds, tailRun]
    by_cases hm : m = 0
    · subst hm
      have hb : cfg.retryBudget ≤ s.retries + 1 := by omega
      rw [tailStep_throttled_exhaust cfg s h1 hb]
      rw [tailStep_cancelled cfg _ .wake (some .retriesExhausted) rfl]
      simp [throttleRounds, tailRun]
    · have hb : ¬ cfg.retryBudget ≤ s.retries + 1 := by omega
      rw [tailStep_throttled_cont cfg s h1 hb]
      rw [tailStep_backoff_wake cfg _ rfl]
      have key := ih
        { s with phase := TailPhase.polling, retries := s.retries + 1,
                 calls := s.calls + 1,
                 interval := min (s.interval * cfg.multiplier) cfg.maxInterval }
        rfl
        (by show s.retries + 1 + m = cfg.retryBudget; omega)
        (by omega)
      refine ⟨key.1, ?_, ?_⟩
      · refine Eq.trans key.2.1 ?_
        show s.calls + 1 + m = s.calls + (m + 1)
        omega
      · exact key.2.2

/-- C3: the command dispatches to exactly one of two distinct fetcher
operations: with the tail flag set, `do_cli` calls the fetcher's tail with
log group, filter and start only, so any supplied end time is ignored;
otherwise it calls fetch over the bounded window; the two calls are
distinct, so there is no single mode-flag-branching fetch function. -/
theorem claim_C3 {α : Type} (logGroup : String) (filterPattern : Option String)
    (start : α) (stop stop2 : Option α) :
    do_cli_dispatch true logGroup filterPattern start stop
      = FetcherCall.tail logGroup filterPattern start ∧
    do_cli_dispatch true logGroup filterPattern start stop
      = do_cli_dispatch true logGroup filterPattern start stop2 ∧
    do_cli_dispatch false logGroup filterPattern start stop
      = FetcherCall.fetch logGroup filterPattern start stop ∧
    FetcherCall.tail logGroup filterPattern start
      ≠ FetcherCall.fetch logGroup filterPattern start stop ∧
    (∀ tailing : Bool,
      do_cli_dispatch tailing logGroup filterPattern start stop
        = FetcherCall.tail logGroup filterPattern start ∨
      do_cli_dispatch tailing logGroup filterPattern start stop
        = FetcherCall.fetch logGroup filterPattern start stop) := by
  refine ⟨rfl, rfl, rfl, by simp, ?_⟩
  intro tailing
  cases tailing
  · exact Or.inr rfl
  · exact Or.inl rfl

/-- C10: invoked without an explicit start-time option the CLI passes the
literal default string "10m ago" to the session, an omitted end time is
passed through as None, and the tail flag defaults to off, so the plain
invocation dispatches to the bounded fetch over exactly that window. -/
theorem claim_C10 (name : String) (stackName filterPattern : Option String) :
    (cliParse name stackName filterPattern none none none).startTime = "10m ago" ∧
    (cliParse name stackName filterPattern none none none).endTime = none ∧
    (cliParse name stackName filterPattern none none none).tailing = false ∧
    ∀ logGroup : String,
      do_cli_dispatch (cliParse name stackName filterPattern none none none).tailing
        logGroup filterPattern
        (cliParse name stackName filterPattern none none none).startTime
        (cliParse name stackName filterPattern none none none).endTime
      = FetcherCall.fetch logGroup filterPattern ("10m ago") none :=
  ⟨rfl, rfl, rfl, fun _ => rfl⟩

/-- Writes of the output loop are exactly the per-event formatter lines. -/
theorem writesOf_output (format : LogEvent → String) :
    ∀ events : List LogEvent,
      writesOf (do_cli_output format events) = do_format format events := by
  intro events
  induction events with
  | nil => rfl
  | cons e es ih => simp [do_cli_output, writesOf, do_format, ih]

/-- The formatter stage maps the pure per-event formatter over the events. -/
theorem do_format_map (format : LogEvent → String) :
    ∀ events : List LogEvent, do_format format events = events.map format := by
  intro events
  induction events with
  | nil => rfl
  | cons e es ih => simp [do_format, ih]

/-- In every prefix of the output trace at most one pulled event is still
unwritten. -/
theorem output_incremental (format : LogEvent → String) :
    ∀ (events : List LogEvent) (n : Nat),
      producesOf ((do_cli_output format events).take n)
        ≤ (writesOf ((do_cli_output format events).take n)).length + 1 := by
  intro events
  induction events with
  | nil =>
    intro n
    simp [do_cli_output, producesOf, writesOf]
  | cons e es ih =>
    intro n
    match n with
    | 0 => simp [producesOf, writesOf]
    | 1 => simp [do_cli_output, producesOf, writesOf]
    | k + 2 =>
      simp only [do_cli_output, List.take_succ_cons, producesOf, writesOf,
        List.length_cons]
      have := ih k
      omega

/-- C5: every emitted event is individually passed through the pure
formatter and its line is written immediately, one write per event in
emission order; output is incremental, never buffered to full collection: in
every prefix of the output trace at most one pulled event is not yet
written. -/
theorem claim_C5 (format : LogEvent → String) (events : List LogEvent) :
    writesOf (do_cli_output format events) = do_format format events ∧
    do_format format events = events.map format ∧
    (writesOf (do_cli_output format events)).length = events.length ∧
    ∀ n : Nat, producesOf ((do_cli_output format events).take n)
        ≤ (writesOf ((do_cli_output format events).take n)).length + 1 := by
  refine ⟨writesOf_output format events, do_format_map format events, ?_,
    output_incremental format events⟩
  rw [writesOf_output format events, do_format_map format events]
  exact List.length_map events format

/-- C4: a bounded fetch whose start is strictly greater than its end fails
with InvalidTimeRange immediately, with zero backend calls, for every
backend, budget and fuel, so no backend call precedes the failure and no
retry follows it. -/
theorem claim_C4 (backend : Nat → BackendResponse) (budget fuel : Nat)
    (start stop : Nat) (h : stop < start) :
    fetchRun backend budget fuel start stop
      = some (.error .invalidTimeRange, 0) := by
  simp [fetchRun, h]

/-- Witness: a concrete inverted window fails immediately with no backend
call. -/
theorem claim_C4_witness :
    (100 : Nat) < 200 ∧
    fetchRun backendW 3 5 200 100 = some (.error .invalidTimeRange, 0) :=
  ⟨by decide, claim_C4 backendW 3 5 200 100 (by decide)⟩

/-- C8: a bounded fetch over an empty window, start equal to end, emits the
empty sequence with zero backend calls, for every backend, budget and
fuel. -/
theorem claim_C8 (backend : Nat → BackendResponse) (budget fuel start : Nat) :
    fetchRun backend budget fuel start start = some (.ok [], 0) := by
  simp [fetchRun]

/-- C1, amended: in every bounded fetch and in every tail session the emitted
sequence is an order-preserving selection of the backend's delivery, so ties
keep stable input order, and whenever the backend's delivery across the
session is non-decreasing in timestamp, every pair of adjacent emitted
events e1, e2 satisfies e1.timestamp ≤ e2.timestamp. The unconditional form
of the ordering fails when an overlapping re-poll delivers a late-arriving
event behind the watermark; see the counterexample below. -/
theorem claim_C1 :
    (∀ (backend : Nat → BackendResponse) (budget fuel start stop : Nat)
       (evs : List LogEvent) (n : Nat),
       fetchRun backend budget fuel start stop = some (.ok evs, n) →
       List.Sublist evs (backendEvents backend 0 fuel) ∧
       (List.Pairwise tsLE (backendEvents backend 0 fuel) → TsSorted evs)) ∧
    (∀ (cfg : TailConfig) (start : Nat) (inputs : List TailInput),
       List.Sublist (tailRun cfg (TailState.init cfg start) inputs).emitted
         (pagesIn inputs) ∧
       (List.Pairwise tsLE (pagesIn inputs) →
         TsSorted (tailRun cfg (TailState.init cfg start) inputs).emitted)) := by
  constructor
  · intro backend budget fuel start stop evs n h
    obtain ⟨hnd, hsub⟩ := fetchRun_ok_spec backend budget fuel start stop evs n h
    exact ⟨hsub, fun hp => (hp.sublist hsub).chain'⟩
  · intro cfg start inputs
    obtain ⟨t, ht, hsub, hfresh, hnd⟩ :=
      tailRun_emitted_spec cfg inputs (TailState.init cfg start)
    have he : (tailRun cfg (TailState.init cfg start) inputs).emitted = t := by
      simpa [TailState.init] using ht
    rw [he]
    exact ⟨hsub, fun hp => (hp.sublist hsub).chain'⟩

/-- Witness: a concrete tail session over one sorted page emits a sorted
selection of the backend's delivery. -/
theorem claim_C1_witness :
    List.Sublist (tailRun cfgW (TailState.init cfgW 0) inputsW).emitted
      (pagesIn inputsW) ∧
    TsSorted (tailRun cfgW (TailState.init cfgW 0) inputsW).emitted :=
  ⟨(claim_C1.2 cfgW 0 inputsW).1, (claim_C1.2 cfgW 0 inputsW).2 (by decide)⟩

/-- C1, counterexample to the unconditional ordering: in the concrete tail
session where the first poll delivers the event at timestamp 105 and the
overlapping re-poll then delivers the late-arriving, never-seen event at
timestamp 101, the session emits them in that order, so the emitted sequence
is not non-decreasing in timestamp. -/
theorem claim_C1_counterexample :
    (tailRun cfgW (TailState.init cfgW 0) lateInputs).emitted = [evC, evB] ∧
    ¬ TsSorted (tailRun cfgW (TailState.init cfgW 0) lateInputs).emitted := by
  refine ⟨rfl, ?_⟩
  intro h
  have h2 : TsSorted [evC, evB] := h
  simp [TsSorted, List.chain'_cons, tsLE, evC, evB] at h2

/-- C2: admit returns whether the event is new and, exactly when new, records
its identifier and advances the watermark to the maximum of the current
watermark and the event timestamp; consequently no event identifier appears
twice in the emitted sequence of any bounded fetch or of any tail session,
even when the backend returns overlapping pages across poll boundaries. -/
theorem claim_C2 :
    (∀ (c : Cursor) (e : LogEvent), (c.accept e).1 = true ↔ e.ident ∉ c.seen) ∧
    (∀ (c : Cursor) (e : LogEvent), (c.accept e).1 = true →
       ((c.accept e).2).watermark = max c.watermark e.timestamp ∧
       e.ident ∈ ((c.accept e).2).seen) ∧
    (∀ (c : Cursor) (e : LogEvent), (c.accept e).1 = false → (c.accept e).2 = c) ∧
    (∀ (backend : Nat → BackendResponse) (budget fuel start stop : Nat)
       (evs : List LogEvent) (n : Nat),
       fetchRun backend budget fuel start stop = some (.ok evs, n) →
       (idsOf evs).Nodup) ∧
    (∀ (cfg : TailConfig) (start : Nat) (inputs : List TailInput),
       (idsOf (tailRun cfg (TailState.init cfg start) inputs).emitted).Nodup) := by
  refine ⟨admit_fst_iff, ?_, admit_snd_of_old, ?_, ?_⟩
  · intro c e h
    rw [admit_snd_of_new c e h]
    exact ⟨rfl, List.mem_cons_self _ _⟩
  · intro backend budget fuel start stop evs n h
    exact (fetchRun_ok_spec backend budget fuel start stop evs n h).1
  · intro cfg start inputs
    obtain ⟨t, ht, hsub, hfresh, hnd⟩ :=
      tailRun_emitted_spec cfg inputs (TailState.init cfg start)
    have he : (tailRun cfg (TailState.init cfg start) inputs).emitted = t := by
      simpa [TailState.init] using ht
    rw [he]
    exact hnd

/-- Witness: a concrete new event advances the watermark and is recorded, and
a concrete overlapping fetch emits distinct identifiers. -/
theorem claim_C2_witness :
    ((Cursor.init 0).accept evA).2.watermark
        = max (Cursor.init 0).watermark evA.timestamp ∧
    evA.ident ∈ ((Cursor.init 0).accept evA).2.seen ∧
    (idsOf [evA, evB]).Nodup :=
  ⟨(claim_C2.2.1 (Cursor.init 0) evA (by decide)).1,
   (claim_C2.2.1 (Cursor.init 0) evA (by decide)).2,
   claim_C2.2.2.2.1 backendW 3 1 0 10 [evA, evB] 1 rfl⟩

/-- C6: against a backend that always returns Throttled, a bounded fetch
fails with RetriesExhausted after exactly the configured attempt budget of
backend calls, and a tail session reaches the terminal Cancelled state
carrying RetriesExhausted after exactly the budget of backend calls, after
which its state absorbs every further stimulus, so no further backend call
is issued. -/
theorem claim_C6 :
    (∀ (budget fuel start stop : Nat), 1 ≤ budget → budget ≤ fuel →
       start < stop →
       fetchRun alwaysThrottled budget fuel start stop
         = some (.error .retriesExhausted, budget)) ∧
    (∀ (cfg : TailConfig) (start : Nat), 1 ≤ cfg.retryBudget →
       (tailRun cfg (TailState.init cfg start)
           (throttleRounds cfg.retryBudget)).phase
         = .cancelled (some .retriesExhausted) ∧
       (tailRun cfg (TailState.init cfg start)
           (throttleRounds cfg.retryBudget)).calls = cfg.retryBudget ∧
       ∀ extra : List TailInput,
         tailRun cfg (tailRun cfg (TailState.init cfg start)
             (throttleRounds cfg.retryBudget)) extra
           = tailRun cfg (TailState.init cfg start)
               (throttleRounds cfg.retryBudget)) := by
  constructor
  · intro budget fuel start stop h1 h2 h3
    have hlt : ¬ stop < start := by omega
    have hne : ¬ start = stop := by omega
    rw [fetchRun, if_neg hlt, if_neg hne]
    have hl := fetchLoop_throttled budget budget fuel 0 0 (Cursor.init start)
      (by omega) h1 h2
    simpa using hl
  · intro cfg start h1
    obtain ⟨hp, hc, he⟩ := tailRun_throttled cfg cfg.retryBudget
      (TailState.init cfg start) rfl (by simp [TailState.init]) h1
    refine ⟨hp, ?_, ?_⟩
    · rw [hc]
      simp [TailState.init]
    · intro extra
      exact tailRun_cancelled cfg extra _ _ hp

/-- Witness: with attempt budget two, a concrete always-throttled fetch and a
concrete always-throttled tail session both exhaust after exactly two
calls. -/
theorem claim_C6_witness :
    fetchRun alwaysThrottled 2 3 0 10 = some (.error .retriesExhausted, 2) ∧
    (tailRun cfgW (TailState.init cfgW 0) (throttleRounds cfgW.retryBudget)).phase
        = .cancelled (some .retriesExhausted) ∧
    (tailRun cfgW (TailState.init cfgW 0) (throttleRounds cfgW.retryBudget)).calls
        = cfgW.retryBudget :=
  ⟨claim_C6.1 2 3 0 10 (by decide) (by decide) (by decide),
   (claim_C6.2 cfgW 0 (by decide)).1,
   (claim_C6.2 cfgW 0 (by decide)).2.1⟩

/-- C7: a poll that yields at least one new event resets the interval to its
minimum and re-enters Polling immediately with no Backoff sleep; an empty
poll enters Backoff holding the current interval for its sleep, and waking
multiplies the interval, capped at the ceiling; with a growth factor of at
least one and an interval within the ceiling the interval never decreases
during an empty run and never exceeds the ceiling. -/
theorem claim_C7 :
    (∀ (cfg : TailConfig) (s : TailState) (events : List LogEvent) (more : Bool),
       s.phase = .polling → (admitEvents s.cursor events).1 ≠ [] →
       (tailStep cfg s (.response (.page events more))).interval
           = cfg.minInterval ∧
       (tailStep cfg s (.response (.page events more))).phase = .polling) ∧
    (∀ (cfg : TailConfig) (s : TailState) (events : List LogEvent) (more : Bool),
       s.phase = .polling → (admitEvents s.cursor events).1 = [] →
       (tailStep cfg s (.response (.page events more))).phase = .backoff ∧
       (tailStep cfg s (.response (.page events more))).interval = s.interval) ∧
    (∀ (cfg : TailConfig) (s : TailState), s.phase = .backoff →
       (tailStep cfg s .wake).phase = .polling ∧
       (tailStep cfg s .wake).interval
         = min (s.interval * cfg.multiplier) cfg.maxInterval) ∧
    (∀ (cfg : TailConfig) (s : TailState), s.phase = .backoff →
       1 ≤ cfg.multiplier → s.interval ≤ cfg.maxInterval →
       s.interval ≤ (tailStep cfg s .wake).interval ∧
       (tailStep cfg s .wake).interval ≤ cfg.maxInterval) := by
  refine ⟨?_, ?_, ?_, ?_⟩
  · intro cfg s events more h1 h2
    have hE : ¬ (admitEvents s.cursor events).1.isEmpty := by
      simpa [List.isEmpty_iff] using h2
    constructor <;> simp [tailStep, h1, hE]
  · intro cfg s events more h1 h2
    have hE : (admitEvents s.cursor events).1.isEmpty := by
      simp [List.isEmpty_iff, h2]
    constructor <;> simp [tailStep, h1, hE]
  · intro cfg s h
    rw [tailStep_backoff_wake cfg s h]
    exact ⟨rfl, rfl⟩
  · intro cfg s h h1 h2
    rw [tailStep_backoff_wake cfg s h]
    constructor
    · show s.interval ≤ min (s.interval * cfg.multiplier) cfg.maxInterval
      exact le_min (Nat.le_mul_of_pos_right s.interval (by omega)) h2
    · show min (s.interval * cfg.multiplier) cfg.maxInterval ≤ cfg.maxInterval
      exact min_le_right _ _

/-- Witness: a concrete non-empty poll resets the interval to the minimum
and stays in Polling, and a concrete backoff wake grows the interval within
the ceiling. -/
theorem claim_C7_witness :
    (tailStep cfgW pollW (.response (.page [evA] true))).interval
        = cfgW.minInterval ∧
    (tailStep cfgW pollW (.response (.page [evA] true))).phase = .polling ∧
    (tailStep cfgW backoffW .wake).phase = .polling ∧
    backoffW.interval ≤ (tailStep cfgW backoffW .wake).interval ∧
    (tailStep cfgW backoffW .wake).interval ≤ cfgW.maxInterval :=
  ⟨(claim_C7.1 cfgW pollW [evA] true rfl (by decide)).1,
   (claim_C7.1 cfgW pollW [evA] true rfl (by decide)).2,
   (claim_C7.2.2.1 cfgW backoffW rfl).1,
   (claim_C7.2.2.2 cfgW backoffW rfl (by decide) (by decide)).1,
   (claim_C7.2.2.2 cfgW backoffW rfl (by decide) (by decide)).2⟩

/-- C9: a tail session never reaches the terminal state on its own: from any
non-cancelled state the only transitions into Cancelled are the explicit
cancellation signal and a fatal error (a fatal classification, or a
retryable one that exhausts the attempt budget while polling); a page
response never cancels, so there is no success terminal state; and Cancelled
absorbs every stimulus. -/
theorem claim_C9 :
    (∀ (cfg : TailConfig) (s : TailState) (i : TailInput)
       (e : Option FetchError),
       (∀ e0 : Option FetchError, s.phase ≠ .cancelled e0) →
       (tailStep cfg s i).phase = .cancelled e →
       i = .cancel ∨ i = .response .notFound ∨ i = .response .unauthorized ∨
       ((i = .response .throttled ∨ i = .response .unavailable) ∧
         s.phase = .polling ∧ cfg.retryBudget ≤ s.retries + 1)) ∧
    (∀ (cfg : TailConfig) (s : TailState) (events : List LogEvent)
       (more : Bool) (e : Option FetchError),
       (tailStep cfg s (.response (.page events more))).phase = .cancelled e →
       s.phase = .cancelled e) ∧
    (∀ (cfg : TailConfig) (s : TailState) (i : TailInput)
       (e : Option FetchError), s.phase = .cancelled e → tailStep cfg s i = s) := by
  refine ⟨?_, ?_, fun cfg s i e h => tailStep_cancelled cfg s i e h⟩
  · intro cfg s i e hnc h
    rcases hp : s.phase with _ | _ | e0
    · rcases i with _ | _ | r
      · exact Or.inl rfl
      · simp [tailStep, hp] at h
      · rcases r with ⟨events, more⟩ | _ | _ | _ | _
        · by_cases hE : (admitEvents s.cursor events).1.isEmpty <;>
            simp [tailStep, hp, hE] at h
        · by_cases hb : cfg.retryBudget ≤ s.retries + 1
          · exact Or.inr (Or.inr (Or.inr ⟨Or.inl rfl, rfl, hb⟩))
          · simp [tailStep, hp, hb] at h
        · by_cases hb : cfg.retryBudget ≤ s.retries + 1
          · exact Or.inr (Or.inr (Or.inr ⟨Or.inr rfl, rfl, hb⟩))
          · simp [tailStep, hp, hb] at h
        · exact Or.inr (Or.inl rfl)
        · exact Or.inr (Or.inr (Or.inl rfl))
    · rcases i with _ | _ | r
      · exact Or.inl rfl
      · simp [tailStep, hp] at h
      · simp [tailStep, hp] at h
    · exact absurd hp (hnc e0)
  · intro cfg s events more e h
    rcases hp : s.phase with _ | _ | e0
    · by_cases hE : (admitEvents s.cursor events).1.isEmpty <;>
        simp [tailStep, hp, hE] at h
    · simp [tailStep, hp] at h
    · rw [tailStep_cancelled cfg s _ e0 hp] at h
      exact hp.symm.trans h

/-- Witness: a concrete polling state is cancelled by the explicit signal,
and a concrete cancelled state absorbs a wake stimulus unchanged. -/
theorem claim_C9_witness :
    (TailInput.cancel = TailInput.cancel ∨
     TailInput.cancel = .response .notFound ∨
     TailInput.cancel = .response .unauthorized ∨
     ((TailInput.cancel = .response .throttled ∨
       TailInput.cancel = .response .unavailable) ∧
       pollW.phase = .polling ∧ cfgW.retryBudget ≤ pollW.retries + 1)) ∧
    tailStep cfgW cancelledW .wake = cancelledW :=
  ⟨claim_C9.1 cfgW pollW .cancel none (fun e0 => by simp [pollW]) rfl,
   claim_C9.2.2 cfgW cancelledW .wake none rfl⟩
